import Mathlib

/-!
Verification of the mdlinks markdown cross-link checker against its
natural-language specification.

The development shallowly embeds the core of `pkg.go`:
  - `slugify` / `textOnly` (heading-slug normalization),
  - `idGenerator.Generate` (per-document anchor-set construction),
  - the per-link resolution loop of `CheckFS` (path candidates, internal
    and external fragment lookup, violation accumulation, fatal errors),
  - the `localLink` filter built on `net/url.Parse`.

Modelling conventions:
  - Go strings are Lean `String`s, iterated as `List Char` (Go iterates
    runes; a rune's byte index is 0 exactly for the first rune, which is
    the only place byte indices matter below).
  - Go's `unicode` tables are embedded exactly on the ASCII range
    (`goIsLetter`, `goIsNumber`, `goToLower`); the `White_Space` property
    used by `unicode.IsSpace` is small and is embedded in full.  All
    concrete inputs appearing in theorems are ASCII.
  - The goldmark syntax-tree walk cannot be embedded; documents enter the
    model at the `docDetails` level (an ordered list of extracted link
    targets plus the anchor set), and the extractor is modelled on the
    list of raw link-target strings encountered by the walk.
  - The filesystem is modelled by three functions: `ex` (does a path
    open successfully, the `exists` closure), `matchBase` (the result of
    `path.Match pat` on a base name), and `meta` (the result of reading,
    UTF-8-validating and parsing a file: `none` models a fatal read or
    encoding error).  The walk itself is the list of file paths in the
    order `fs.WalkDir` visits them.
-/

namespace Mdlinks

/-! ## Go unicode tables (ASCII-exact; full White_Space property) -/

/-- Go `unicode.IsSpace`: the Unicode `White_Space` property.  The property
holds for exactly the code points listed here, so this table is exact. -/
def goIsSpace (c : Char) : Bool :=
  let n := c.toNat
  (9 ≤ n ∧ n ≤ 13) ∨ n = 32 ∨ n = 133 ∨ n = 160 ∨ n = 5760 ∨
  (8192 ≤ n ∧ n ≤ 8202) ∨ n = 8232 ∨ n = 8233 ∨ n = 8239 ∨ n = 8287 ∨ n = 12288

/-- Go `unicode.IsLetter` (category L), embedded exactly on the ASCII
range (`A`-`Z` is 65-90, `a`-`z` is 97-122); non-ASCII code points are not
modelled and classified as non-letters. -/
def goIsLetter (c : Char) : Bool :=
  (65 ≤ c.toNat ∧ c.toNat ≤ 90) ∨ (97 ≤ c.toNat ∧ c.toNat ≤ 122)

/-- Go `unicode.IsNumber` (category N), embedded exactly on the ASCII
range (`0`-`9` is 48-57); non-ASCII code points are not modelled and
classified as non-numbers. -/
def goIsNumber (c : Char) : Bool :=
  48 ≤ c.toNat ∧ c.toNat ≤ 57

/-- Go `unicode.ToLower`, embedded exactly on the ASCII range; non-ASCII
code points are left unchanged. -/
def goToLower (c : Char) : Char :=
  if 65 ≤ c.toNat ∧ c.toNat ≤ 90 then Char.ofNat (c.toNat + 32) else c

/-- An ASCII uppercase letter, `A`-`Z`. -/
def isAsciiUpper (c : Char) : Bool := 65 ≤ c.toNat ∧ c.toNat ≤ 90

def isAsciiAlpha (c : Char) : Bool :=
  (65 ≤ c.toNat ∧ c.toNat ≤ 90) ∨ (97 ≤ c.toNat ∧ c.toNat ≤ 122)

def isAsciiDigit (c : Char) : Bool := 48 ≤ c.toNat ∧ c.toNat ≤ 57

/-- The character set generated slugs draw from: ASCII lowercase letters,
digits, dash (45) and underscore (95). -/
def slugChar (c : Char) : Bool :=
  (97 ≤ c.toNat ∧ c.toNat ≤ 122) ∨ (48 ≤ c.toNat ∧ c.toNat ≤ 57) ∨
  c.toNat = 45 ∨ c.toNat = 95

/-! ## textOnly (`pkg.go` lines 344-372)

`textOnly` feeds the heading bytes through goldmark's inline parser and
concatenates the literal text nodes.  The parser is an external library.

Modelled from the spec: goldmark's inline parsing is not part of this
repository; per spec section 4.2 heading text is recursively unwrapped to
literal text runs, where a link's own text content counts and its target
does not.  The model implements exactly that for inline-link syntax
`[text](target)`: the brackets are dropped, the text between them is kept,
and the parenthesised target is dropped. -/

/-- Drops characters up to and including the first `)` (the inline link
target of `[text](target)`). -/
def dropParen : List Char → List Char
  | [] => []
  | c :: rest => if c = ')' then rest else dropParen rest

/-- The stripping loop, driven by a fuel counter so that it is
structurally recursive (the fuel starts above the input length and
`dropParen` never lengthens the list, so the `0` case is unreachable). -/
def textOnlyGo : Nat → List Char → List Char
  | 0, _ => []
  | _ + 1, [] => []
  | fuel + 1, ']' :: '(' :: rest => textOnlyGo fuel (dropParen rest)
  | fuel + 1, '[' :: rest => textOnlyGo fuel rest
  | fuel + 1, c :: rest => c :: textOnlyGo fuel rest

/-- Modelled from the spec: see the section comment above. -/
def textOnly (s : String) : String := String.mk (textOnlyGo (s.data.length + 1) s.data)

/-! ## slugify (`pkg.go` lines 323-342) -/

/-- The character loop of `slugify` (`pkg.go` lines 331-340).  The `Bool`
argument tracks whether the current rune is at byte index 0: the source
guards the whitespace case with `i != 0`, where `i` is the byte index of
the rune, and a rune sits at byte index 0 exactly when it is the first
rune of the string. -/
def slugifyAuxChars : Bool → List Char → List Char
  | _, [] => []
  | first, c :: rest =>
    if c = '-' ∨ c = '_' then c :: slugifyAuxChars false rest
    else if goIsSpace c ∧ first = false then '-' :: slugifyAuxChars false rest
    else if goIsLetter c ∨ goIsNumber c then goToLower c :: slugifyAuxChars false rest
    else slugifyAuxChars false rest

/-- The rune iteration of `slugify` applied to already-plain text. -/
def slugifyLoop (t : String) : String := String.mk (slugifyAuxChars true t.data)

/-- `slugify` (`pkg.go` lines 323-342): when the heading bytes contain `]`
they are first stripped of markdown syntax via `textOnly`, then the rune
loop runs. -/
def slugify (value : String) : String :=
  let t := if value.data.contains ']' then textOnly value else value
  slugifyLoop t

/-! ## The spec's reference normalization (claim C1's wording) -/

/-- The per-character classification shared by the spec's wording and the
code: `-` and `_` kept, whitespace mapped to `-`, letters and digits
lowercased and kept, everything else dropped. -/
def specMapChar (c : Char) : Option Char :=
  if c = '-' ∨ c = '_' then some c
  else if goIsSpace c then some '-'
  else if goIsLetter c ∨ goIsNumber c then some (goToLower c)
  else none

/-- The reference normalization exactly as claim C1 words it: any RUN of
whitespace collapses to a single `-`, and leading whitespace produces no
leading dash at all.  The `Bool` argument records whether we are still in
a whitespace run (it starts `true` so the leading run emits nothing). -/
def specCollapseAux : Bool → List Char → List Char
  | _, [] => []
  | prevSpace, c :: rest =>
    if goIsSpace c then
      if prevSpace then specCollapseAux true rest
      else '-' :: specCollapseAux true rest
    else
      match specMapChar c with
      | some d => d :: specCollapseAux false rest
      | none => specCollapseAux false rest

/-- Claim C1's reference normalization of section 4.1. -/
def slugifySpecClaim (t : String) : String := String.mk (specCollapseAux true t.data)

/-- The amended normalization on characters: EACH whitespace character
becomes its own `-` (runs are not collapsed), except that a whitespace
character in the very first position is dropped without producing a
dash. -/
def amendedChars : List Char → List Char
  | [] => []
  | c :: rest =>
    (if goIsSpace c then [] else (specMapChar c).toList) ++ rest.filterMap specMapChar

/-- The amended normalization of claim C1. -/
def slugifyAmendedSpec (t : String) : String := String.mk (amendedChars t.data)

/-! ## idGenerator.Generate (`pkg.go` lines 293-319)

`anchors` is a Go `map[string]struct{}`; the model uses a `List String`
treated as a set (membership via `List.contains`), with `List.Nodup` the
meaningful uniqueness statement. -/

/-- Decimal rendering of a natural number, as `fmt.Sprintf` `%d` does. -/
def digitChar (n : Nat) : Char := Char.ofNat (48 + n)

/-- The digit loop, driven by a fuel counter so that it is structurally
recursive (the fuel starts above `n` and `n / 10 < n` for `n ≥ 10`, so
the `0` case is unreachable). -/
def natDecimalGo : Nat → Nat → List Char → List Char
  | 0, _, acc => acc
  | fuel + 1, n, acc =>
    if n < 10 then digitChar n :: acc
    else natDecimalGo fuel (n / 10) (digitChar (n % 10) :: acc)

def natDecimal (n : Nat) : String := String.mk (natDecimalGo (n + 1) n [])

/-- The i-th candidate tried by `Generate`: the base slug itself for
`i = 0`, otherwise `fmt.Sprintf("%s-%d", name, i)`. -/
def candidate (name : String) (i : Nat) : String :=
  if i = 0 then name else name ++ "-" ++ natDecimal i

/-- The candidate loop of `Generate` (`pkg.go` lines 306-318): the first
`i` in `0..99` whose candidate is unused, `none` if all 100 are taken. -/
def generate (seen : List String) (name : String) : Option String :=
  ((List.range 100).find? (fun i => seen.contains (candidate name i) = false)).map
    (candidate name)

/-- One `Generate` call for a heading whose extracted text is `value`:
empty text contributes nothing (`pkg.go` line 299), otherwise the first
free candidate of `slugify value` is added to the anchor set; if the loop
exhausts all 100 candidates the set is unchanged. -/
def generateStep (seen : List String) (value : String) : List String :=
  if value = "" then seen
  else
    match generate seen (slugify value) with
    | some c => c :: seen
    | none => seen

def docAnchorsAux (seen : List String) : List String → List String
  | [] => seen
  | v :: rest => docAnchorsAux (generateStep seen v) rest

/-- The anchor set of a document whose headings have extracted texts
`values`, in document order, starting from the empty set. -/
def docAnchors (values : List String) : List String := docAnchorsAux [] values

/-! ## Go `path` package helpers (`path.Clean`, `path.Join`, `path.Base`)

`CheckFS` resolves relative link targets with
`path.Join(strings.TrimSuffix(p, d.Name()), s.Path)`.  `path.Clean` is
embedded by its lexical segment semantics: skip empty and `.` segments,
let `..` pop the previous segment (kept literally at the front of a
relative path, dropped at the root of a rooted one). -/

def splitSlashAux : List Char → List Char → List (List Char)
  | cur, [] => [cur.reverse]
  | cur, c :: rest =>
    if c = '/' then cur.reverse :: splitSlashAux [] rest
    else splitSlashAux (c :: cur) rest

/-- One step of `path.Clean`'s element loop, on a reversed stack of output
segments. -/
def cleanPush (rooted : Bool) (stack : List String) (seg : String) : List String :=
  if seg = "" ∨ seg = "." then stack
  else if seg = ".." then
    match stack with
    | [] => if rooted then [] else [".."]
    | top :: rest => if top = ".." then ".." :: top :: rest else rest
  else seg :: stack

def joinSegs : List String → String
  | [] => ""
  | [s] => s
  | s :: rest => s ++ "/" ++ joinSegs rest

/-- Go `path.Clean`. -/
def goPathClean (p : String) : String :=
  if p = "" then "."
  else
    let rooted := p.data.head? = some '/'
    let segs := (splitSlashAux [] p.data).map String.mk
    let body := joinSegs (segs.foldl (cleanPush rooted) []).reverse
    if rooted then String.mk ('/' :: body.data)
    else if body = "" then "." else body

/-- Go `path.Join` on two elements: non-empty elements joined with `/`,
then cleaned; all-empty input yields the empty string. -/
def goPathJoin2 (a b : String) : String :=
  if a = "" ∧ b = "" then ""
  else if a = "" then goPathClean b
  else goPathClean (a ++ "/" ++ b)

/-- Go `path.Base`. -/
def goPathBase (p : String) : String :=
  if p = "" then "."
  else
    let r := p.data.reverse.dropWhile (fun c => c = '/')
    if r = [] then "/"
    else String.mk ((r.takeWhile (fun c => c ≠ '/')).reverse)

/-- Go `strings.TrimSuffix`. -/
def trimSuffix (s suffix : String) : String :=
  if suffix.data.isSuffixOf s.data then String.mk (s.data.take (s.data.length - suffix.data.length))
  else s

/-! ## Data model (`pkg.go` lines 129-132, 234-284) -/

structure LinkInfo where
  Raw : String
  Path : String
  Fragment : String
  LineStart : Nat
  LineEnd : Nat
deriving DecidableEq

inductive ViolationKind where
  | kindFileNotExists
  | kindBrokenInternalAnchor
  | kindBrokenExternalAnchor
deriving DecidableEq

structure BrokenLink where
  File : String
  Link : LinkInfo
  kind : ViolationKind
deriving DecidableEq

structure DocDetails where
  links : List LinkInfo
  anchors : List String
deriving DecidableEq

structure BrokenLinksError where
  Links : List BrokenLink
deriving DecidableEq

/-! ## The resolver loop of CheckFS (`pkg.go` lines 61-127)

The filesystem enters the model as three functions: `ex p` is whether
`fsys.Open p` succeeds (the `exists` closure, line 31), `matchBase n` is
`path.Match pat n` on a base name (the pattern was validated up front, so
the error `path.Match` can return is impossible and the code discards
it), and `meta p` is the result of `getFileMeta p`: `none` models a
failed `fs.ReadFile`, invalid UTF-8 or a parse error (all returned as Go
errors, aborting the walk), `some` the parsed `docDetails` (the `seen`
cache only memoizes this pure result and is semantically transparent).
The walk is the list of visited file paths in `fs.WalkDir` order
(lexical; directories and the pruned `.git` subtree are not in the
list as they are skipped at lines 66-71). -/

/-- The candidate fs path `srel` a link points to (`pkg.go` lines 80-86).
For a file entry, `d.Name()` is `path.Base p`. -/
def srelOf (p : String) (s : LinkInfo) : String :=
  if s.Path ≠ "" ∧ s.Path.data.head? = some '/' then String.mk s.Path.data.tail
  else if s.Path ≠ "" then goPathJoin2 (trimSuffix p (goPathBase p)) s.Path
  else ""

/-- One iteration of the link loop (`pkg.go` lines 79-117): either a fatal
error (the Go error returned when the link target's own `getFileMeta`
fails, carrying the offending path), or the violation this link
contributes, if any. -/
def checkLink (ex : String → Bool) (matchBase : String → Bool)
    (meta : String → Option DocDetails) (p : String) (docMeta : DocDetails)
    (s : LinkInfo) : Except String (Option BrokenLink) :=
  let srel := srelOf p s
  if srel ≠ "" ∧ ex srel = false then
    .ok (some ⟨p, s, .kindFileNotExists⟩)
  else if s.Path = "" ∧ s.Fragment ≠ "" ∧ docMeta.anchors.contains s.Fragment = false then
    .ok (some ⟨p, s, .kindBrokenInternalAnchor⟩)
  else if srel = "" ∨ s.Fragment = "" then .ok none
  else if matchBase (goPathBase srel) = false then .ok none
  else
    match meta srel with
    | none => .error srel
    | some meta2 =>
      if meta2.anchors.contains s.Fragment = false then
        .ok (some ⟨p, s, .kindBrokenExternalAnchor⟩)
      else .ok none

/-- The link loop over a document's extracted links, in extraction order,
stopping at the first fatal error. -/
def checkLinks (ex : String → Bool) (matchBase : String → Bool)
    (meta : String → Option DocDetails) (p : String) (docMeta : DocDetails) :
    List LinkInfo → Except String (List BrokenLink)
  | [] => .ok []
  | s :: rest =>
    match checkLink ex matchBase meta p docMeta s with
    | .error e => .error e
    | .ok v =>
      match checkLinks ex matchBase meta p docMeta rest with
      | .error e => .error e
      | .ok bs => .ok (v.toList ++ bs)

/-- The walk (`fs.WalkDir` with the closure `fn`, `pkg.go` lines 62-122):
files whose base name does not match the pattern are skipped; a matched
file is parsed (fatal error on failure) and its links are checked; the
violations of all matched files accumulate in walk order. -/
def walkCheck (ex : String → Bool) (matchBase : String → Bool)
    (meta : String → Option DocDetails) : List String → Except String (List BrokenLink)
  | [] => .ok []
  | p :: rest =>
    if matchBase (goPathBase p) = false then walkCheck ex matchBase meta rest
    else
      match meta p with
      | none => .error p
      | some dm =>
        match checkLinks ex matchBase meta p dm dm.links with
        | .error e => .error e
        | .ok bs =>
          match walkCheck ex matchBase meta rest with
          | .error e => .error e
          | .ok bs2 => .ok (bs ++ bs2)

/-- `CheckFS` (`pkg.go` lines 120-126): a fatal error is returned as-is;
otherwise `nil` (here `none`) when no violations were found, and a single
`*BrokenLinksError` carrying the full ordered list otherwise. -/
def CheckFS (ex : String → Bool) (matchBase : String → Bool)
    (meta : String → Option DocDetails) (walk : List String) :
    Except String (Option BrokenLinksError) :=
  match walkCheck ex matchBase meta walk with
  | .error e => .error e
  | .ok [] => .ok none
  | .ok bs => .ok (some ⟨bs⟩)

/-- The violation a single link contributes when no fatal error occurs
(the `.ok` content of `checkLink`). -/
def linkViolation (ex : String → Bool) (matchBase : String → Bool)
    (meta : String → Option DocDetails) (p : String) (docMeta : DocDetails)
    (s : LinkInfo) : Option BrokenLink :=
  match checkLink ex matchBase meta p docMeta s with
  | .ok v => v
  | .error _ => none

/-- A document's violations in link-extraction order. -/
def docViolations (ex : String → Bool) (matchBase : String → Bool)
    (meta : String → Option DocDetails) (p : String) (docMeta : DocDetails) :
    List BrokenLink :=
  docMeta.links.filterMap (linkViolation ex matchBase meta p docMeta)

/-- All violations of a scan: per matched document in walk order, each
document's violations in link-extraction order. -/
def allViolations (ex : String → Bool) (matchBase : String → Bool)
    (meta : String → Option DocDetails) : List String → List BrokenLink
  | [] => []
  | p :: rest =>
    (if matchBase (goPathBase p) = true then
      match meta p with
      | some dm => docViolations ex matchBase meta p dm
      | none => []
    else []) ++ allViolations ex matchBase meta rest

/-! ## net/url.Parse and localLink (`pkg.go` lines 164-178)

`localLink` keeps a link target only when `url.Parse` succeeds and the
result has no scheme and no host and a non-empty path or fragment.  The
model embeds `url.Parse` to the fidelity those checks need: the fragment
is split off at the first `#`, the query at the first `?`, the scheme is
recognised per RFC 3986 (`ALPHA *( ALPHA / DIGIT / "+" / "-" / "." ) ":"`),
`//`-authorities yield the host (the part of the authority after the last
`@`), a control character anywhere or a `:` inside the first path segment
of a scheme-less non-rooted URL is a parse error, and a scheme with a
non-rooted remainder makes the remainder opaque (empty `Path`).
Percent-decoding of path and fragment and host validation are not
modelled; no claim touches them and all concrete inputs below are free of
escapes. -/

structure GoURL where
  Scheme : String
  Host : String
  Path : String
  Fragment : String
deriving DecidableEq

def isCtl (c : Char) : Bool := c.toNat < 32 ∨ c.toNat = 127

/-- Splits at the first occurrence of `sep`; second component is what
follows it (empty if absent). -/
def cutAt (sep : Char) : List Char → List Char × List Char
  | [] => ([], [])
  | c :: rest =>
    if c = sep then ([], rest)
    else
      let r := cutAt sep rest
      (c :: r.1, r.2)

/-- Go `getscheme`: `none` is a parse error (colon at position 0),
`some none` means no scheme (the caller keeps the whole input), and
`some (some (scheme, rest))` splits off the scheme. -/
def getSchemeAux (acc : List Char) : List Char → Option (Option (List Char × List Char))
  | [] => some none
  | c :: rest =>
    if c = ':' then
      if acc = [] then none
      else some (some (acc.reverse, rest))
    else if isAsciiAlpha c then getSchemeAux (c :: acc) rest
    else if (isAsciiDigit c ∨ c = '+' ∨ c = '-' ∨ c = '.') ∧ acc ≠ [] then
      getSchemeAux (c :: acc) rest
    else some none

def startsSlash : List Char → Bool
  | '/' :: _ => true
  | _ => false

def startsSlashSlash : List Char → Bool
  | '/' :: '/' :: _ => true
  | _ => false

def startsSlash3 : List Char → Bool
  | '/' :: '/' :: '/' :: _ => true
  | _ => false

/-- The host part of an authority: everything after the last `@`
(userinfo stripped); validation not modelled. -/
def afterLastAt (auth : List Char) : List Char :=
  if auth.contains '@' then ((cutAt '@' auth.reverse).1).reverse else auth

/-- Go `url.Parse` to the fidelity `localLink` needs (see the section
comment). `none` is a parse error. -/
def goURLParse (s : String) : Option GoURL :=
  if s.data.any isCtl then none
  else
    let cut := cutAt '#' s.data
    let frag := if s.data.contains '#' then cut.2 else []
    let beforeFrag := cut.1
    match getSchemeAux [] beforeFrag with
    | none => none
    | some res =>
      let scheme := match res with | none => ([] : List Char) | some sr => sr.1
      let afterScheme := match res with | none => beforeFrag | some sr => sr.2
      let rest := (cutAt '?' afterScheme).1
      if startsSlash rest = false ∧ scheme = [] ∧ ((cutAt '/' rest).1).contains ':' then
        none
      else if scheme ≠ [] ∧ startsSlash rest = false then
        some ⟨String.mk scheme, "", "", String.mk frag⟩
      else if startsSlashSlash rest ∧ (scheme ≠ [] ∨ startsSlash3 rest = false) then
        let afterSlashes := rest.drop 2
        let auth := (cutAt '/' afterSlashes).1
        let pathPart := afterSlashes.drop auth.length
        some ⟨String.mk scheme, String.mk (afterLastAt auth), String.mk pathPart, String.mk frag⟩
      else
        some ⟨String.mk scheme, "", String.mk rest, String.mk frag⟩

/-- `localLink` (`pkg.go` lines 164-178): keep only schema-less,
domain-less targets that carry a path or a fragment. -/
def localLink (s : String) : Option GoURL :=
  if s = "" then none
  else
    match goURLParse s with
    | none => none
    | some u =>
      if u.Scheme ≠ "" ∨ u.Host ≠ "" then none
      else if u.Path = "" ∧ u.Fragment = "" then none
      else some u

/-- The link half of the extractor walk (`pkg.go` lines 179-213),
abstracted over the goldmark traversal: `targets` is the ordered list of
raw link/image/auto-link target strings the walk encounters, each with
the line span `nodeContext` computes for its node; a `LinkInfo` is
retained exactly for the targets `localLink` accepts. -/
def extractLinks (targets : List (String × Nat × Nat)) : List LinkInfo :=
  targets.filterMap (fun t =>
    (localLink t.1).map (fun u => ⟨t.1, u.Path, u.Fragment, t.2.1, t.2.2⟩))

/-! ## Scenario A (the repository's `testdata/a` layout) -/

/-- `index.md` of scenario A: one link `three.md`. -/
def docIndexA : DocDetails := ⟨[⟨"three.md", "three.md", "", 3, 3⟩], []⟩

/-- `one.md` of scenario A: one link `/three.md`. -/
def docOneA : DocDetails := ⟨[⟨"/three.md", "/three.md", "", 3, 3⟩], []⟩

/-- `subdir/two.md` of scenario A: one link `../three.md#hi`. -/
def docTwoA : DocDetails := ⟨[⟨"../three.md#hi", "../three.md", "hi", 3, 4⟩], []⟩

/-- The files that exist in scenario A (`three.md` does not). -/
def exA : String → Bool := fun q =>
  q = "index.md" ∨ q = "one.md" ∨ q = "subdir" ∨ q = "subdir/two.md"

/-- The `*.md` base-name matcher restricted to the names scenario A
queries. -/
def mbA : String → Bool := fun n =>
  n = "index.md" ∨ n = "one.md" ∨ n = "two.md" ∨ n = "three.md"

def metaA : String → Option DocDetails := fun p =>
  if p = "index.md" then some docIndexA
  else if p = "one.md" then some docOneA
  else if p = "subdir/two.md" then some docTwoA
  else none

/-- Scenario A's walk order: lexical. -/
def walkA : List String := ["index.md", "one.md", "subdir/two.md"]

/-- The three `FileNotFound` violations scenario A must produce, in
walk order. -/
def brokenA : List BrokenLink :=
  [⟨"index.md", ⟨"three.md", "three.md", "", 3, 3⟩, .kindFileNotExists⟩,
   ⟨"one.md", ⟨"/three.md", "/three.md", "", 3, 3⟩, .kindFileNotExists⟩,
   ⟨"subdir/two.md", ⟨"../three.md#hi", "../three.md", "hi", 3, 4⟩, .kindFileNotExists⟩]

/-! ## Helper lemmas -/

theorem slugifyAuxChars_false_eq (l : List Char) :
    slugifyAuxChars false l = l.filterMap specMapChar := by
  induction l with
  | nil => rfl
  | cons c rest ih =>
    simp only [slugifyAuxChars, specMapChar, List.filterMap_cons]
    by_cases h1 : c = '-' ∨ c = '_'
    · simp [h1, ih]
    · by_cases h2 : goIsSpace c = true
      · simp [h1, h2, ih]
      · by_cases h3 : goIsLetter c = true ∨ goIsNumber c = true
        · simp [h1, h2, h3, ih]
        · simp [h1, h2, h3, ih]

/-! ## Claim theorems -/

/-- C1 counterexample: the code does NOT collapse a run of whitespace to a
single dash (`"a  b"` slugifies to `"a--b"`, the reference normalization
of the claim gives `"a-b"`), and only a whitespace character at the very
first position is dropped (`"  a"` gives `"-a"`, the reference gives
`"a"`).  The repository's own test expects
`punctuation---and----repeating--spaces`, confirming the code side. -/
theorem slugify_run_collapse_counterexample :
    slugify ("a  b") = "a--b" ∧ slugifySpecClaim ("a  b") = "a-b" ∧
    slugify ("a  b") ≠ slugifySpecClaim ("a  b") ∧
    slugify ("  a") = "-a" ∧ slugifySpecClaim ("  a") = "a" ∧
    slugify ("  a") ≠ slugifySpecClaim ("  a") := by
  refine ⟨by decide, by decide, by decide, by decide, by decide, by decide⟩

/-- Whitespace is disjoint from letters: the `White_Space` code points
avoid 65-90 and 97-122. -/
theorem goIsSpace_letter_false (c : Char) (h : goIsSpace c = true) :
    goIsLetter c = false := by
  simp [goIsSpace] at h
  simp [goIsLetter]
  omega

/-- Whitespace is disjoint from digits. -/
theorem goIsSpace_number_false (c : Char) (h : goIsSpace c = true) :
    goIsNumber c = false := by
  simp [goIsSpace] at h
  simp [goIsNumber]
  omega

theorem slugifyAuxChars_true_eq (l : List Char) :
    slugifyAuxChars true l = amendedChars l := by
  cases l with
  | nil => rfl
  | cons c rest =>
    simp only [slugifyAuxChars, amendedChars]
    by_cases h1 : c = '-' ∨ c = '_'
    · have hs : goIsSpace c = false := by
        rcases h1 with h1 | h1 <;> subst h1 <;> decide
      simp [h1, hs, specMapChar, slugifyAuxChars_false_eq]
    · by_cases h2 : goIsSpace c = true
      · have h3 : ¬(goIsLetter c = true ∨ goIsNumber c = true) := by
          rintro (h3 | h3)
          · rw [goIsSpace_letter_false c h2] at h3
            exact Bool.noConfusion h3
          · rw [goIsSpace_number_false c h2] at h3
            exact Bool.noConfusion h3
        simp [h1, h2, h3, slugifyAuxChars_false_eq]
      · by_cases h3 : goIsLetter c = true ∨ goIsNumber c = true
        · simp [h1, h2, h3, specMapChar, slugifyAuxChars_false_eq]
        · simp [h1, h2, h3, specMapChar, slugifyAuxChars_false_eq]

/-- C1 (amended): for heading plain text (no `]`, so the markdown
stripping branch is not taken), the slug equals the amended normalization:
letters and digits lowercased and kept, `-` and `_` kept, EACH whitespace
character becomes its own `-` (runs are not collapsed), except that a
whitespace character in the very first position is dropped without
producing a dash; all other characters are dropped. -/
theorem slugify_amended_correct (t : String) (h : ']' ∉ t.data) :
    slugify t = slugifyAmendedSpec t := by
  unfold slugify
  rw [if_neg (by simpa using h)]
  unfold slugifyLoop slugifyAmendedSpec
  exact congrArg String.mk (slugifyAuxChars_true_eq t.data)

/-- C1 amended witness. -/
theorem slugify_amended_correct_witness :
    slugify ("Foo  Bar") = slugifyAmendedSpec ("Foo  Bar") :=
  slugify_amended_correct ("Foo  Bar") (by decide)

/-- C9: a heading containing markdown inline link syntax contributes a
slug derived from its literal text only; the heading
`A [Link](https://example.org/) Inside` produces exactly the anchor
`a-link-inside` (its stripped text being `A Link Inside`). -/
theorem heading_markup_slug :
    slugify ("A [Link](https://example.org/) Inside") = "a-link-inside" ∧
    textOnly ("A [Link](https://example.org/) Inside") = "A Link Inside" := by
  refine ⟨by decide, by decide⟩

/-- C3: a link path starting with `/` resolves against the scan root with
the leading slash stripped; a relative link path resolves against the
containing directory of the document via Go `path.Join` (which supports
`..` segments): `/x.md` from `sub/doc.md` gives `x.md`, `../x.md` from
`sub/doc.md` gives `x.md` (the parent of `sub`), `x.md` from `sub/doc.md`
gives `sub/x.md`, and `../../x.md` from `a/b/doc.md` gives `x.md`. -/
theorem candidate_path_resolution :
    (∀ (p : String) (s : LinkInfo), s.Path ≠ "" → s.Path.data.head? = some '/' →
      srelOf p s = String.mk s.Path.data.tail) ∧
    (∀ (p : String) (s : LinkInfo), s.Path ≠ "" → s.Path.data.head? ≠ some '/' →
      srelOf p s = goPathJoin2 (trimSuffix p (goPathBase p)) s.Path) ∧
    srelOf "sub/doc.md" (⟨"/x.md", "/x.md", "", 0, 0⟩ : LinkInfo) = "x.md" ∧
    srelOf "sub/doc.md" (⟨"../x.md", "../x.md", "", 0, 0⟩ : LinkInfo) = "x.md" ∧
    srelOf "sub/doc.md" (⟨"x.md", "x.md", "", 0, 0⟩ : LinkInfo) = "sub/x.md" ∧
    srelOf "a/b/doc.md" (⟨"../../x.md", "../../x.md", "", 0, 0⟩ : LinkInfo) = "x.md" := by
  refine ⟨?_, ?_, by decide, by decide, by decide, by decide⟩
  · intro p s h1 h2
    simp [srelOf, h1, h2]
  · intro p s h1 h2
    simp [srelOf, h1, h2]

/-- C3 witness. -/
theorem candidate_path_resolution_witness :
    srelOf "d/f.md" (⟨"/a.md", "/a.md", "", 0, 0⟩ : LinkInfo) = "a.md" := by
  have h := candidate_path_resolution.1 "d/f.md" ⟨"/a.md", "/a.md", "", 0, 0⟩
    (by decide) (by decide)
  rw [h]
  decide

/-! ## C6: anchor-set uniqueness -/

theorem generate_not_mem {seen : List String} {name c : String}
    (h : generate seen name = some c) : c ∉ seen := by
  unfold generate at h
  rcases Option.map_eq_some'.mp h with ⟨i, hfind, rfl⟩
  have hp := List.find?_some hfind
  simp at hp
  simpa using hp

theorem generateStep_nodup {seen : List String} (h : seen.Nodup) (v : String) :
    (generateStep seen v).Nodup := by
  by_cases hv : v = ""
  · simpa [generateStep, hv] using h
  · cases hg : generate seen (slugify v) with
    | none => simpa [generateStep, hv, hg] using h
    | some c =>
      simp [generateStep, hv, hg]
      exact ⟨generate_not_mem hg, h⟩

theorem docAnchorsAux_nodup (values : List String) :
    ∀ seen : List String, seen.Nodup → (docAnchorsAux seen values).Nodup := by
  induction values with
  | nil => intro seen h; exact h
  | cons v rest ih =>
    intro seen h
    exact ih (generateStep seen v) (generateStep_nodup h v)

theorem generate_exhausted_aux (name : String) :
    generate ((List.range 100).map (candidate name)) name = none := by
  unfold generate
  have hall : ∀ i ∈ List.range 100,
      ¬(decide (((List.range 100).map (candidate name)).contains (candidate name i) = false) = true) := by
    intro i hi hc
    rw [decide_eq_true_iff] at hc
    exact absurd (List.mem_map_of_mem (candidate name) hi) (by simpa using hc)
  rw [List.find?_eq_none.mpr hall]
  rfl

/-- C6: for every document, the anchor set is duplicate-free: colliding
headings receive ascending `-1`, `-2`, ... suffixes in order of first
appearance (three headings `x` yield exactly `x`, `x-1`, `x-2`), the loop
tries suffixes `0..99`, and a heading all of whose 100 candidates are
taken contributes no anchor at all, leaving the set unchanged. -/
theorem anchor_uniqueness :
    (∀ values : List String, (docAnchors values).Nodup) ∧
    docAnchors ["x", "x", "x"] = ["x-2", "x-1", "x"] ∧
    (∀ name : String, generate ((List.range 100).map (candidate name)) name = none) ∧
    (∀ v : String,
      generateStep ((List.range 100).map (candidate (slugify v))) v =
        (List.range 100).map (candidate (slugify v))) := by
  refine ⟨?_, by decide, generate_exhausted_aux, ?_⟩
  · intro values
    exact docAnchorsAux_nodup values [] List.nodup_nil
  · intro v
    by_cases hv : v = ""
    · simp [generateStep, hv]
    · unfold generateStep
      rw [if_neg hv, generate_exhausted_aux]

/-! ## C2: fragment resolution -/

theorem srelOf_empty_path (p : String) (s : LinkInfo) (hp : s.Path = "") :
    srelOf p s = "" := by
  simp [srelOf, hp]

/-- C2: for a retained link whose path resolved or is empty: with an empty
path and a non-empty fragment, the fragment is looked up in the current
document's anchor set and an internal-anchor violation is recorded exactly
when absent; with a non-empty path (whose candidate exists) and a
non-empty fragment, fragment validation is skipped entirely when the
candidate's base name fails the name pattern, and otherwise the fragment
is looked up in the candidate document's anchor set with an
external-anchor violation recorded exactly when absent.  (`ex "" = false`
records that opening the empty path always fails, which is forced by the
`fs.FS` contract.) -/
theorem resolver_fragment_lookup (ex matchBase : String → Bool)
    (meta : String → Option DocDetails) (p : String) (dm : DocDetails)
    (s : LinkInfo) (hex : ex "" = false) :
    (s.Path = "" → s.Fragment ≠ "" →
      checkLink ex matchBase meta p dm s =
        .ok (if dm.anchors.contains s.Fragment then none
             else some ⟨p, s, .kindBrokenInternalAnchor⟩)) ∧
    (s.Path ≠ "" → s.Fragment ≠ "" → ex (srelOf p s) = true →
      (matchBase (goPathBase (srelOf p s)) = false →
        checkLink ex matchBase meta p dm s = .ok none) ∧
      (∀ m2, matchBase (goPathBase (srelOf p s)) = true → meta (srelOf p s) = some m2 →
        checkLink ex matchBase meta p dm s =
          .ok (if m2.anchors.contains s.Fragment then none
               else some ⟨p, s, .kindBrokenExternalAnchor⟩))) := by
  constructor
  · intro hp hf
    have hs : srelOf p s = "" := srelOf_empty_path p s hp
    simp [checkLink, hs, hp, hf]
    split <;> rfl
  · intro hp hf hexist
    have hsne : srelOf p s ≠ "" := by
      intro h0
      rw [h0, hex] at hexist
      exact Bool.noConfusion hexist
    constructor
    · intro hm
      simp [checkLink, hp, hf, hexist, hsne, hm]
    · intro m2 hm hmeta
      simp [checkLink, hp, hf, hexist, hsne, hm, hmeta]
      split <;> rfl

/-- C2 witness: a cross-document link `x.md#h` from `doc.md`, where
`x.md` exists, matches the pattern, and carries the anchor `h`. -/
theorem resolver_fragment_lookup_witness :
    checkLink (fun q => decide (q = "x.md")) (fun _ => true)
      (fun q => if q = "x.md" then some ⟨[], ["h"]⟩ else none)
      "doc.md" (⟨[], []⟩ : DocDetails) (⟨"x.md#h", "x.md", "h", 0, 0⟩ : LinkInfo) =
      .ok none := by
  have h := (resolver_fragment_lookup (fun q => decide (q = "x.md")) (fun _ => true)
      (fun q => if q = "x.md" then some ⟨[], ["h"]⟩ else none)
      "doc.md" ⟨[], []⟩ ⟨"x.md#h", "x.md", "h", 0, 0⟩ (by decide)).2
      (by decide) (by decide) (by decide)
  have h2 := h.2 ⟨[], ["h"]⟩ (by decide) (by decide)
  rw [h2, if_pos (by decide)]

/-! ## C4: FileNotFound and scan continuation -/

/-- C4 counterexample: the link target `/` has a non-empty path whose
candidate path (the empty string, which never opens: the `exists`
function here is constantly false) does not resolve, yet the resolver
records nothing at all for it — the claim predicts a `FileNotFound`
violation. -/
theorem fileNotFound_root_counterexample :
    checkLink (fun _ => false) (fun _ => true) (fun _ => none) "doc.md"
      (⟨[], []⟩ : DocDetails) (⟨"/", "/", "", 0, 0⟩ : LinkInfo) = .ok none ∧
    (⟨"/", "/", "", 0, 0⟩ : LinkInfo).Path ≠ "" ∧
    (fun _ => false : String → Bool) (srelOf "doc.md" (⟨"/", "/", "", 0, 0⟩ : LinkInfo)) = false ∧
    some (⟨"doc.md", ⟨"/", "/", "", 0, 0⟩, .kindFileNotExists⟩ : BrokenLink) ≠
      (none : Option BrokenLink) := by
  refine ⟨rfl, by decide, rfl, by simp⟩

/-- C4 (amended): for every link whose non-empty path component yields a
NON-EMPTY candidate path that does not exist, a `FileNotFound` violation
is recorded and processing of that link stops (no fragment or metadata
lookup enters the result), while the scan continues: a recorded violation
never aborts the remaining links of the document nor the walk over the
remaining files.  The sole degenerate target `/` yields an empty
candidate and is skipped without any check. -/
theorem fileNotFound_amended (ex matchBase : String → Bool)
    (meta : String → Option DocDetails) (p : String) (dm : DocDetails) (s : LinkInfo) :
    (s.Path ≠ "" → srelOf p s ≠ "" → ex (srelOf p s) = false →
      checkLink ex matchBase meta p dm s = .ok (some ⟨p, s, .kindFileNotExists⟩)) ∧
    (s.Path = "/" →
      srelOf p s = "" ∧ checkLink ex matchBase meta p dm s = .ok none) ∧
    (∀ v rest, checkLink ex matchBase meta p dm s = .ok v →
      checkLinks ex matchBase meta p dm (s :: rest) =
        (checkLinks ex matchBase meta p dm rest).map (fun bs => v.toList ++ bs)) ∧
    (∀ walkRest bs, matchBase (goPathBase p) = true → meta p = some dm →
      checkLinks ex matchBase meta p dm dm.links = .ok bs →
      walkCheck ex matchBase meta (p :: walkRest) =
        (walkCheck ex matchBase meta walkRest).map (fun bs2 => bs ++ bs2)) := by
  refine ⟨?_, ?_, ?_, ?_⟩
  · intro hp hsne hexf
    simp [checkLink, hsne, hexf]
  · intro hp
    have hs : srelOf p s = "" := by
      simp [srelOf, hp]
    refine ⟨hs, ?_⟩
    simp [checkLink, hs, hp]
  · intro v rest h
    cases hr : checkLinks ex matchBase meta p dm rest with
    | error e => simp [checkLinks, h, hr, Except.map]
    | ok bs => simp [checkLinks, h, hr, Except.map]
  · intro walkRest bs hm hmeta hbs
    cases hr : walkCheck ex matchBase meta walkRest with
    | error e => simp [walkCheck, hm, hmeta, hbs, hr, Except.map]
    | ok bs2 => simp [walkCheck, hm, hmeta, hbs, hr, Except.map]

/-- C4 witness: scenario A's `index.md` link `three.md` where `three.md`
does not exist. -/
theorem fileNotFound_amended_witness :
    checkLink (fun _ => false) (fun _ => true) (fun _ => none) "index.md"
      (⟨[], []⟩ : DocDetails) (⟨"three.md", "three.md", "", 0, 0⟩ : LinkInfo) =
      .ok (some ⟨"index.md", ⟨"three.md", "three.md", "", 0, 0⟩, .kindFileNotExists⟩) :=
  (fileNotFound_amended (fun _ => false) (fun _ => true) (fun _ => none) "index.md"
    ⟨[], []⟩ ⟨"three.md", "three.md", "", 0, 0⟩).1 (by decide) (by decide) rfl

/-! ## C5: aggregate result and ordering -/

theorem checkLink_ok_eq {ex matchBase : String → Bool}
    {meta : String → Option DocDetails} {p : String} {dm : DocDetails}
    {s : LinkInfo} {v : Option BrokenLink}
    (h : checkLink ex matchBase meta p dm s = .ok v) :
    v = linkViolation ex matchBase meta p dm s := by
  unfold linkViolation
  rw [h]

theorem checkLinks_ok_eq {ex matchBase : String → Bool}
    {meta : String → Option DocDetails} {p : String} {dm : DocDetails} :
    ∀ {links : List LinkInfo} {bs : List BrokenLink},
      checkLinks ex matchBase meta p dm links = .ok bs →
      bs = links.filterMap (linkViolation ex matchBase meta p dm) := by
  intro links
  induction links with
  | nil =>
    intro bs h
    simp [checkLinks] at h
    simp [h.symm]
  | cons s rest ih =>
    intro bs h
    cases hc : checkLink ex matchBase meta p dm s with
    | error e =>
      simp only [checkLinks, hc] at h
      exact Except.noConfusion h
    | ok v =>
      cases hr : checkLinks ex matchBase meta p dm rest with
      | error e =>
        simp only [checkLinks, hc, hr] at h
        exact Except.noConfusion h
      | ok bs2 =>
        simp only [checkLinks, hc, hr] at h
        have hbs : v.toList ++ bs2 = bs := Except.ok.inj h
        rw [← hbs, ih hr, List.filterMap_cons, ← checkLink_ok_eq hc]
        cases v <;> simp

theorem walkCheck_ok_eq {ex matchBase : String → Bool}
    {meta : String → Option DocDetails} :
    ∀ {walk : List String} {l : List BrokenLink},
      walkCheck ex matchBase meta walk = .ok l →
      l = allViolations ex matchBase meta walk := by
  intro walk
  induction walk with
  | nil =>
    intro l h
    simp [walkCheck] at h
    simp [allViolations, h.symm]
  | cons p rest ih =>
    intro l h
    cases hmb : matchBase (goPathBase p) with
    | false =>
      simp only [walkCheck, hmb] at h
      simp [allViolations, hmb, ih h]
    | true =>
      cases hmeta : meta p with
      | none =>
        simp only [walkCheck, hmb] at h
        rw [hmeta] at h
        simp at h
      | some dm =>
        cases hls : checkLinks ex matchBase meta p dm dm.links with
        | error e =>
          simp only [walkCheck, hmb] at h
          rw [hmeta] at h
          simp only [hls] at h
          simp at h
        | ok bs =>
          cases hw : walkCheck ex matchBase meta rest with
          | error e =>
            simp only [walkCheck, hmb] at h
            rw [hmeta] at h
            simp only [hls, hw] at h
            simp at h
          | ok bs2 =>
            simp only [walkCheck, hmb] at h
            rw [hmeta] at h
            simp only [hls, hw] at h
            have hl : bs ++ bs2 = l := by simpa using h
            rw [← hl, ih hw]
            simp [allViolations, hmb, hmeta, docViolations, checkLinks_ok_eq hls]

/-- C5: `CheckFS` succeeds (returns `none`, modelling Go `nil`) exactly
when the scan found zero violations; otherwise it returns one aggregate
`BrokenLinksError` carrying the full violation list, which is the
concatenation, over matched documents in walk order, of each document's
violations in link-extraction order. -/
theorem checkFS_aggregate (ex matchBase : String → Bool)
    (meta : String → Option DocDetails) (walk : List String) (l : List BrokenLink)
    (h : walkCheck ex matchBase meta walk = .ok l) :
    l = allViolations ex matchBase meta walk ∧
    (l = [] → CheckFS ex matchBase meta walk = .ok none) ∧
    (l ≠ [] → CheckFS ex matchBase meta walk = .ok (some ⟨l⟩)) ∧
    (CheckFS ex matchBase meta walk = .ok none → l = []) := by
  refine ⟨walkCheck_ok_eq h, ?_, ?_, ?_⟩
  · intro hl
    subst hl
    unfold CheckFS
    rw [h]
  · intro hl
    unfold CheckFS
    rw [h]
    cases l with
    | nil => exact absurd rfl hl
    | cons b bs => rfl
  · intro hok
    unfold CheckFS at hok
    rw [h] at hok
    cases l with
    | nil => rfl
    | cons b bs => simp at hok

/-- C5 witness: scenario A yields exactly its three `FileNotFound`
violations, in walk order, as one aggregate error. -/
theorem checkFS_aggregate_witness :
    CheckFS exA mbA metaA walkA = .ok (some ⟨brokenA⟩) ∧
    brokenA = allViolations exA mbA metaA walkA := by
  have h := checkFS_aggregate exA mbA metaA walkA brokenA (by rfl)
  exact ⟨h.2.2.1 (by simp [brokenA]), h.1⟩

/-! ## C8: fatal errors abort the scan -/

/-- C8: a file that cannot be read or is not valid UTF-8 (`meta` returns
`none`) aborts the whole scan with a fatal error rather than a
per-link violation, whether the file is reached as the resolution target
of another file's cross-document fragment link (first conjunct: the link
loop returns a Go error) or as a traversal match (third conjunct), and
the error the walk surfaces is returned as-is by `CheckFS` — an
`Except.error`, structurally distinct from every `.ok` outcome and in
particular from a `BrokenLinksError` (fourth conjunct). -/
theorem fatal_error_aborts (ex matchBase : String → Bool)
    (meta : String → Option DocDetails) :
    (∀ p dm s, s.Path ≠ "" → s.Fragment ≠ "" → ex "" = false →
      ex (srelOf p s) = true → matchBase (goPathBase (srelOf p s)) = true →
      meta (srelOf p s) = none →
      checkLink ex matchBase meta p dm s = .error (srelOf p s)) ∧
    (∀ p dm links (e : String),
      (∃ s, s ∈ links ∧ checkLink ex matchBase meta p dm s = .error e) →
      ∃ e2, checkLinks ex matchBase meta p dm links = .error e2) ∧
    (∀ walk p, p ∈ walk → matchBase (goPathBase p) = true →
      (meta p = none ∨
        ∃ dm e, meta p = some dm ∧ checkLinks ex matchBase meta p dm dm.links = .error e) →
      ∃ e2, walkCheck ex matchBase meta walk = .error e2) ∧
    (∀ walk e, walkCheck ex matchBase meta walk = .error e →
      CheckFS ex matchBase meta walk = .error e ∧
      ∀ r, CheckFS ex matchBase meta walk ≠ .ok r) := by
  refine ⟨?_, ?_, ?_, ?_⟩
  · intro p dm s hp hf hex hexist hm hmeta
    have hsne : srelOf p s ≠ "" := by
      intro h0
      rw [h0, hex] at hexist
      exact Bool.noConfusion hexist
    simp [checkLink, hp, hf, hexist, hsne, hm, hmeta]
  · intro p dm links e
    induction links with
    | nil =>
      rintro ⟨s, hs, _⟩
      exact absurd hs (List.not_mem_nil s)
    | cons s0 rest ih =>
      rintro ⟨s, hs, herr⟩
      cases hc : checkLink ex matchBase meta p dm s0 with
      | error e0 =>
        exact ⟨e0, by simp only [checkLinks, hc]⟩
      | ok v =>
        rcases List.mem_cons.mp hs with rfl | hsrest
        · rw [hc] at herr
          exact Except.noConfusion herr
        · rcases ih ⟨s, hsrest, herr⟩ with ⟨e2, he2⟩
          exact ⟨e2, by simp only [checkLinks, hc, he2]⟩
  · intro walk
    induction walk with
    | nil =>
      intro p hp
      exact absurd hp (List.not_mem_nil p)
    | cons q rest ih =>
      intro p hp hmb hbad
      rcases List.mem_cons.mp hp with rfl | hprest
      · rcases hbad with hnone | ⟨dm, e, hdm, herr⟩
        · exact ⟨p, by simp [walkCheck, hmb, hnone]⟩
        · exact ⟨e, by simp [walkCheck, hmb, hdm, herr]⟩
      · cases hq : matchBase (goPathBase q) with
        | false =>
          rcases ih p hprest hmb hbad with ⟨e2, he2⟩
          exact ⟨e2, by simp [walkCheck, hq, he2]⟩
        | true =>
          cases hm : meta q with
          | none => exact ⟨q, by simp [walkCheck, hq, hm]⟩
          | some dmq =>
            cases hls : checkLinks ex matchBase meta q dmq dmq.links with
            | error e0 => exact ⟨e0, by simp [walkCheck, hq, hm, hls]⟩
            | ok bs =>
              rcases ih p hprest hmb hbad with ⟨e2, he2⟩
              exact ⟨e2, by simp [walkCheck, hq, hm, hls, he2]⟩
  · intro walk e h
    constructor
    · unfold CheckFS
      rw [h]
    · intro r hr
      unfold CheckFS at hr
      rw [h] at hr
      exact Except.noConfusion hr

/-- C8 witness: the cross-document link `x.md#h` whose target `x.md`
exists but cannot be parsed (`meta` fails) turns into a fatal error. -/
theorem fatal_error_aborts_witness :
    checkLink (fun q => decide (q = "x.md")) (fun _ => true) (fun _ => none)
      "doc.md" (⟨[], []⟩ : DocDetails) (⟨"x.md#h", "x.md", "h", 0, 0⟩ : LinkInfo) =
      .error (srelOf "doc.md" (⟨"x.md#h", "x.md", "h", 0, 0⟩ : LinkInfo)) :=
  (fatal_error_aborts (fun q => decide (q = "x.md")) (fun _ => true) (fun _ => none)).1
    "doc.md" ⟨[], []⟩ ⟨"x.md#h", "x.md", "h", 0, 0⟩
    (by decide) (by decide) (by decide) (by decide) (by decide) rfl

/-! ## C10: exact, case-sensitive fragment lookup -/

theorem charOfNat_toNat (n : Nat) (h : n ≤ 122) : (Char.ofNat n).toNat = n := by
  unfold Char.ofNat
  split
  · rfl
  · rename_i hv
    exfalso
    apply hv
    constructor
    omega

theorem slugChar_goToLower (c : Char) (h : goIsLetter c = true ∨ goIsNumber c = true) :
    slugChar (goToLower c) = true := by
  unfold goToLower
  by_cases hu : 65 ≤ c.toNat ∧ c.toNat ≤ 90
  · rw [if_pos hu]
    simp [slugChar, charOfNat_toNat (c.toNat + 32) (by omega)]
    omega
  · rw [if_neg hu]
    simp [goIsLetter, goIsNumber] at h
    simp [slugChar]
    omega

theorem slugifyAuxChars_chars : ∀ (first : Bool) (l : List Char) (c : Char),
    c ∈ slugifyAuxChars first l → slugChar c = true := by
  intro first l
  induction l generalizing first with
  | nil =>
    intro c hc
    simp [slugifyAuxChars] at hc
  | cons a rest ih =>
    intro c hc
    simp only [slugifyAuxChars] at hc
    split at hc
    · rename_i h1
      rcases List.mem_cons.mp hc with rfl | hrest
      · rcases h1 with rfl | rfl <;> decide
      · exact ih false c hrest
    · split at hc
      · rcases List.mem_cons.mp hc with rfl | hrest
        · decide
        · exact ih false c hrest
      · split at hc
        · rename_i h2 h3
          rcases List.mem_cons.mp hc with rfl | hrest
          · exact slugChar_goToLower a h3
          · exact ih false c hrest
        · exact ih false c hc

/-- Every character of a generated base slug is a lowercase letter, a
digit, `-` or `_`. -/
theorem slugify_chars (v : String) (c : Char) (hc : c ∈ (slugify v).data) :
    slugChar c = true := by
  unfold slugify slugifyLoop at hc
  exact slugifyAuxChars_chars true _ c hc

theorem natDecimalGo_chars : ∀ (fuel n : Nat) (acc : List Char),
    (∀ c ∈ acc, slugChar c = true) → ∀ c ∈ natDecimalGo fuel n acc, slugChar c = true := by
  intro fuel
  induction fuel with
  | zero =>
    intro n acc hacc c hc
    exact hacc c hc
  | succ fuel ih =>
    intro n acc hacc c hc
    simp only [natDecimalGo] at hc
    split at hc
    · rename_i h10
      rcases List.mem_cons.mp hc with rfl | hmem
      · unfold digitChar
        simp [slugChar, charOfNat_toNat (48 + n) (by omega)]
        omega
      · exact hacc c hmem
    · refine ih (n / 10) _ ?_ c hc
      intro d hd
      rcases List.mem_cons.mp hd with rfl | hmem
      · unfold digitChar
        have hlt : n % 10 < 10 := Nat.mod_lt _ (by omega)
        simp [slugChar, charOfNat_toNat (48 + n % 10) (by omega)]
        omega
      · exact hacc d hmem

theorem strData_append (a b : String) : (a ++ b).data = a.data ++ b.data := rfl

theorem candidate_chars (name : String) (i : Nat)
    (hname : ∀ c ∈ name.data, slugChar c = true) :
    ∀ c ∈ (candidate name i).data, slugChar c = true := by
  intro c hc
  unfold candidate at hc
  split at hc
  · exact hname c hc
  · rw [strData_append, strData_append] at hc
    rcases List.mem_append.mp hc with hc2 | hdec
    · rcases List.mem_append.mp hc2 with hn | hdash
      · exact hname c hn
      · have hc3 : c = '-' := by simpa using hdash
        subst hc3
        decide
    · exact natDecimalGo_chars (i + 1) i [] (by simp) c hdec

theorem generate_eq_candidate {seen : List String} {name c : String}
    (h : generate seen name = some c) : ∃ i, c = candidate name i := by
  unfold generate at h
  rcases Option.map_eq_some'.mp h with ⟨i, _, rfl⟩
  exact ⟨i, rfl⟩

theorem docAnchorsAux_chars : ∀ (values seen : List String),
    (∀ a ∈ seen, ∀ c ∈ a.data, slugChar c = true) →
    ∀ a ∈ docAnchorsAux seen values, ∀ c ∈ a.data, slugChar c = true := by
  intro values
  induction values with
  | nil =>
    intro seen h a ha
    exact h a ha
  | cons v rest ih =>
    intro seen h a ha
    refine ih (generateStep seen v) ?_ a ha
    intro a2 ha2
    unfold generateStep at ha2
    split at ha2
    · exact h a2 ha2
    · cases hg : generate seen (slugify v) with
      | none =>
        rw [hg] at ha2
        exact h a2 ha2
      | some cand0 =>
        rw [hg] at ha2
        rcases List.mem_cons.mp ha2 with rfl | hmem
        · rcases generate_eq_candidate hg with ⟨i, rfl⟩
          exact candidate_chars _ i (fun c hc => slugify_chars v c hc)
        · exact h a2 hmem

/-- A fragment containing an ASCII uppercase letter equals no generated
anchor. -/
theorem upper_fragment_not_anchor (values : List String) {frag : String} {u : Char}
    (hu : u ∈ frag.data) (hup : isAsciiUpper u = true) :
    frag ∉ docAnchors values := by
  intro hmem
  have hch := docAnchorsAux_chars values []
    (by intro a ha; exact absurd ha (List.not_mem_nil a)) frag hmem u hu
  simp [slugChar] at hch
  simp [isAsciiUpper] at hup
  omega

/-- C10: fragment lookup is an exact, case-sensitive comparison against
the generated anchor set: every anchor consists only of lowercase
letters, digits, `-` and `_` (first conjunct), so an internal link whose
non-empty fragment contains an ASCII uppercase letter — in particular one
differing from an anchor only in letter case — matches no anchor and is
always reported as an internal-anchor violation (second conjunct). -/
theorem fragment_case_sensitive (ex matchBase : String → Bool)
    (meta : String → Option DocDetails) (p : String) (values : List String)
    (dm : DocDetails) (s : LinkInfo) (u : Char)
    (hanch : dm.anchors = docAnchors values)
    (hp : s.Path = "") (hf : s.Fragment ≠ "")
    (hu : u ∈ s.Fragment.data) (hup : isAsciiUpper u = true) :
    (∀ a ∈ dm.anchors, ∀ c ∈ a.data, slugChar c = true) ∧
    checkLink ex matchBase meta p dm s =
      .ok (some ⟨p, s, .kindBrokenInternalAnchor⟩) := by
  constructor
  · rw [hanch]
    exact docAnchorsAux_chars values []
      (by intro a ha; exact absurd ha (List.not_mem_nil a))
  · have hnotmem : s.Fragment ∉ dm.anchors := by
      rw [hanch]
      exact upper_fragment_not_anchor values hu hup
    have hs : srelOf p s = "" := srelOf_empty_path p s hp
    simp [checkLink, hs, hp, hf, hnotmem]

/-- C10 witness: the heading `Hi` generates the anchor `hi`, and the
internal link `#Hi` — differing only in case — is reported. -/
theorem fragment_case_sensitive_witness :
    checkLink (fun _ => false) (fun _ => false) (fun _ => none) "one.md"
      (⟨[], docAnchors ["Hi"]⟩ : DocDetails) (⟨"#Hi", "", "Hi", 0, 0⟩ : LinkInfo) =
      .ok (some ⟨"one.md", ⟨"#Hi", "", "Hi", 0, 0⟩, .kindBrokenInternalAnchor⟩) :=
  (fragment_case_sensitive (fun _ => false) (fun _ => false) (fun _ => none)
    "one.md" ["Hi"] ⟨[], docAnchors ["Hi"]⟩ ⟨"#Hi", "", "Hi", 0, 0⟩ 'H'
    rfl rfl (by decide) (by decide) (by decide)).2

/-! ## C7: only local links are extracted -/

theorem localLink_some {s : String} {u : GoURL} (h : localLink s = some u) :
    u.Scheme = "" ∧ u.Host = "" ∧ (u.Path ≠ "" ∨ u.Fragment ≠ "") := by
  unfold localLink at h
  by_cases h0 : s = ""
  · rw [if_pos h0] at h
    exact Option.noConfusion h
  · rw [if_neg h0] at h
    cases hp : goURLParse s with
    | none =>
      simp only [hp] at h
      exact Option.noConfusion h
    | some u2 =>
      simp only [hp] at h
      by_cases h1 : u2.Scheme ≠ "" ∨ u2.Host ≠ ""
      · rw [if_pos h1] at h
        exact Option.noConfusion h
      · rw [if_neg h1] at h
        by_cases h2 : u2.Path = "" ∧ u2.Fragment = ""
        · rw [if_pos h2] at h
          exact Option.noConfusion h
        · rw [if_neg h2] at h
          cases Option.some.inj h
          push_neg at h1 h2
          refine ⟨h1.1, h1.2, ?_⟩
          by_cases hpath : u.Path = ""
          · exact Or.inr (h2 hpath)
          · exact Or.inl hpath

/-- C7: the extractor retains a `LinkInfo` only for targets that
`localLink` accepts — no URL scheme, no host, and a non-empty path or
fragment after splitting — so external links are never extracted:
`http://`, `https://` and `mailto:` targets all parse to `none`, while a
plain relative target with a fragment is kept with its split
components. -/
theorem extractor_local_links_only :
    (∀ (targets : List (String × Nat × Nat)) (li : LinkInfo),
      li ∈ extractLinks targets →
      ∃ u, localLink li.Raw = some u ∧ li.Path = u.Path ∧ li.Fragment = u.Fragment ∧
        u.Scheme = "" ∧ u.Host = "" ∧ (u.Path ≠ "" ∨ u.Fragment ≠ "")) ∧
    localLink "http://example.org/a.md" = none ∧
    localLink "https://example.org/" = none ∧
    localLink "mailto:user@example.org" = none ∧
    localLink "x.md#frag" = some ⟨"", "", "x.md", "frag"⟩ := by
  refine ⟨?_, rfl, rfl, rfl, rfl⟩
  intro targets li hli
  unfold extractLinks at hli
  rcases List.mem_filterMap.mp hli with ⟨t, ht, hf⟩
  rcases Option.map_eq_some'.mp hf with ⟨u, hu, rfl⟩
  rcases localLink_some hu with ⟨h1, h2, h3⟩
  exact ⟨u, hu, rfl, rfl, h1, h2, h3⟩

/-- C7 witness: the target `a.md#x` is retained with path `a.md` and
fragment `x`, scheme-less and host-less. -/
theorem extractor_local_links_only_witness :
    ∃ u, localLink "a.md#x" = some u ∧ ("a.md" : String) = u.Path ∧
      ("x" : String) = u.Fragment ∧ u.Scheme = "" ∧ u.Host = "" ∧
      (u.Path ≠ "" ∨ u.Fragment ≠ "") :=
  extractor_local_links_only.1 [("a.md#x", 1, 2)] ⟨"a.md#x", "a.md", "x", 1, 2⟩
    (by decide)

end Mdlinks
